import Mathlib

/-!
Verification of the content-aware incremental indexing pipeline of
`vidkosha_core` (`src/main.rs`): binary classification, overlapped byte
chunking, handler registry and resolution, the markdown / data / plain-text /
code / binary handlers, the ingest manifest, and the driver loop of
`run_index_repo`.

Modelling conventions:
* Rust `String` / `&str` values are modelled as `List Char` (their character
  sequences); raw byte buffers (`&[u8]`, `Vec<u8>`) as `List Nat` with each
  element < 256 where it matters.
* `String::from_utf8_lossy` at chunk boundaries is modelled by keeping the raw
  byte slices: lossy decoding maps nonempty byte lists to nonempty strings and
  valid UTF-8 to itself, so the claims (offsets, counts, emptiness) are
  unaffected.
* `f64` thresholds and ratios are modelled as exact rationals (`ℚ`).
* Path handling models `Path::extension` for ordinary relative paths (the
  special components `.` and `..` are not modelled; no claim uses them).
-/

/-- Unicode `White_Space` test used by Rust's `char::is_whitespace`. -/
def rustIsWhitespace (c : Char) : Bool :=
  let n := c.toNat
  decide (n = 0x20 ∨ (0x9 ≤ n ∧ n ≤ 0xD) ∨ n = 0x85 ∨ n = 0xA0 ∨ n = 0x1680 ∨
    (0x2000 ≤ n ∧ n ≤ 0x200A) ∨ n = 0x2028 ∨ n = 0x2029 ∨ n = 0x202F ∨
    n = 0x205F ∨ n = 0x3000)

/-- Rust `str::trim_start`. -/
def trimStart (s : List Char) : List Char :=
  s.dropWhile rustIsWhitespace

/-- Rust `str::trim_end`. -/
def trimEnd (s : List Char) : List Char :=
  (s.reverse.dropWhile rustIsWhitespace).reverse

/-- Rust `str::trim`. -/
def rustTrim (s : List Char) : List Char :=
  trimEnd (trimStart s)

/-- ASCII lowercasing of one character (`u8::to_ascii_lowercase`). -/
def asciiLowerChar (c : Char) : Char :=
  if c.toNat ≥ 0x41 ∧ c.toNat ≤ 0x5A then Char.ofNat (c.toNat + 0x20) else c

/-- Rust `str::to_ascii_lowercase`. -/
def asciiLower (s : List Char) : List Char :=
  s.map asciiLowerChar

/-- Rust `str::eq_ignore_ascii_case`. -/
def eqIgnoreAsciiCase (a b : List Char) : Bool :=
  asciiLower a = asciiLower b

/-- Decimal digits of a natural number, as Rust's `Display` for `usize`. -/
def natChars (n : Nat) : List Char :=
  (Nat.repr n).data

/-- UTF-8 encoding of a single character. -/
def utf8EncodeChar (c : Char) : List Nat :=
  let n := c.toNat
  if n < 0x80 then [n]
  else if n < 0x800 then [0xC0 + n / 0x40, 0x80 + n % 0x40]
  else if n < 0x10000 then
    [0xE0 + n / 0x1000, 0x80 + n / 0x40 % 0x40, 0x80 + n % 0x40]
  else
    [0xF0 + n / 0x40000, 0x80 + n / 0x1000 % 0x40, 0x80 + n / 0x40 % 0x40,
      0x80 + n % 0x40]

/-- UTF-8 encoding of a string (Rust `str::as_bytes` / `String::into_bytes`). -/
def utf8Encode (s : List Char) : List Nat :=
  (s.map utf8EncodeChar).flatten

/-- Is `b` a UTF-8 continuation byte `0x80..=0xBF`? -/
def utf8Cont (b : Nat) : Bool :=
  decide (0x80 ≤ b ∧ b ≤ 0xBF)

/-- UTF-8 validity of a byte sequence, as checked by Rust's
`String::from_utf8` / `str::from_utf8` (RFC 3629: no overlongs, no
surrogates, max U+10FFFF). -/
def isValidUtf8 : List Nat → Bool
  | [] => true
  | b :: rest =>
    if b ≤ 0x7F then isValidUtf8 rest
    else if 0xC2 ≤ b ∧ b ≤ 0xDF then
      match rest with
      | b1 :: rest1 => utf8Cont b1 && isValidUtf8 rest1
      | [] => false
    else if b = 0xE0 then
      match rest with
      | b1 :: b2 :: rest2 =>
        decide (0xA0 ≤ b1 ∧ b1 ≤ 0xBF) && utf8Cont b2 && isValidUtf8 rest2
      | _ => false
    else if (0xE1 ≤ b ∧ b ≤ 0xEC) ∨ b = 0xEE ∨ b = 0xEF then
      match rest with
      | b1 :: b2 :: rest2 => utf8Cont b1 && utf8Cont b2 && isValidUtf8 rest2
      | _ => false
    else if b = 0xED then
      match rest with
      | b1 :: b2 :: rest2 =>
        decide (0x80 ≤ b1 ∧ b1 ≤ 0x9F) && utf8Cont b2 && isValidUtf8 rest2
      | _ => false
    else if b = 0xF0 then
      match rest with
      | b1 :: b2 :: b3 :: rest3 =>
        decide (0x90 ≤ b1 ∧ b1 ≤ 0xBF) && utf8Cont b2 && utf8Cont b3 &&
          isValidUtf8 rest3
      | _ => false
    else if 0xF1 ≤ b ∧ b ≤ 0xF3 then
      match rest with
      | b1 :: b2 :: b3 :: rest3 =>
        utf8Cont b1 && utf8Cont b2 && utf8Cont b3 && isValidUtf8 rest3
      | _ => false
    else if b = 0xF4 then
      match rest with
      | b1 :: b2 :: b3 :: rest3 =>
        decide (0x80 ≤ b1 ∧ b1 ≤ 0x8F) && utf8Cont b2 && utf8Cont b3 &&
          isValidUtf8 rest3
      | _ => false
    else false

/-- Final path component (`Path::file_name` for ordinary relative paths). -/
def fileName (path : List Char) : List Char :=
  (path.reverse.takeWhile (fun c => c ≠ '/')).reverse

/-- Rust `Path::extension`: the part of the file name after its last `.`,
`none` when there is no `.` or the only `.` is the leading one. -/
def pathExt (path : List Char) : Option (List Char) :=
  let name := fileName path
  match name.reverse.dropWhile (fun c => c ≠ '.') with
  | [] => none
  | [_] => none
  | _ => some (name.reverse.takeWhile (fun c => c ≠ '.')).reverse

/-- Split a string at every newline character, keeping empty pieces. -/
def splitNewline : List Char → List (List Char)
  | [] => [[]]
  | '\n' :: rest => [] :: splitNewline rest
  | c :: rest =>
    match splitNewline rest with
    | l :: ls => (c :: l) :: ls
    | [] => [[c]]

/-- Drop one trailing carriage return from a `\n`-terminated piece, as Rust
`str::lines` does for a `\r\n` separator. -/
def stripTrailingCR (l : List Char) : List Char :=
  if l.getLast? = some '\r' then l.dropLast else l

/-- Rust `str::lines`: split at `\n`; every piece that was terminated by a
`\n` has one trailing `\r` stripped (the `\r\n` separator), while the final
unterminated piece is kept as-is — including a trailing `\r` (std doc
example: `"foo\r\nbar\n\nbaz\r"` ends in line `"baz\r"`); a final line
ending produces no extra empty line. -/
def rustLines (s : List Char) : List (List Char) :=
  let parts := splitNewline s
  match parts.getLast? with
  | some [] => parts.dropLast.map stripTrailingCR
  | some last => parts.dropLast.map stripTrailingCR ++ [last]
  | none => []

/-- Rust `[&str]::join("\n")`. -/
def joinNL : List (List Char) → List Char
  | [] => []
  | [l] => l
  | l :: ls => l ++ '\n' :: joinNL ls

/-- Loop body of `chunk_with_overlap` (`main.rs:1185-1197`), fuelled for
termination; each iteration emits the byte window `[start, end)` and steps to
`end - min(overlap_bytes, chunk_bytes, end - start)`. The fuel given by
`chunk_with_overlap` is sufficient whenever the Rust loop terminates. -/
def chunkGo (bytes : List Nat) (chunkBytes overlapBytes : Nat) :
    Nat → Nat → List (List Nat)
  | 0, _ => []
  | fuel + 1, start =>
    if start < bytes.length then
      let e := min (start + chunkBytes) bytes.length
      let slice := (bytes.drop start).take (e - start)
      if e = bytes.length then [slice]
      else
        slice ::
          chunkGo bytes chunkBytes overlapBytes fuel
            (e - min (min overlapBytes chunkBytes) (e - start))
    else []

/-- `chunk_with_overlap` (`main.rs:1177-1200`): overlapped byte windows over
the content; returns no chunks when `chunk_bytes == 0`. -/
def chunk_with_overlap (bytes : List Nat) (chunkBytes overlapBytes : Nat) :
    List (List Nat) :=
  if chunkBytes = 0 then []
  else chunkGo bytes chunkBytes overlapBytes (bytes.length + 1) 0

/-- The `(start, end)` window offsets traversed by `chunk_with_overlap`'s
loop (same control flow as `chunkGo`, recording offsets instead of slices). -/
def chunkOffsetsGo (len chunkBytes overlapBytes : Nat) :
    Nat → Nat → List (Nat × Nat)
  | 0, _ => []
  | fuel + 1, start =>
    if start < len then
      let e := min (start + chunkBytes) len
      if e = len then [(start, e)]
      else
        (start, e) ::
          chunkOffsetsGo len chunkBytes overlapBytes fuel
            (e - min (min overlapBytes chunkBytes) (e - start))
    else []

/-- Window offsets of `chunk_with_overlap` over a buffer of length `len`. -/
def chunkOffsets (len chunkBytes overlapBytes : Nat) : List (Nat × Nat) :=
  if chunkBytes = 0 then []
  else chunkOffsetsGo len chunkBytes overlapBytes (len + 1) 0

/-- `is_probably_binary_with_threshold` (`main.rs:1423-1445`), with the `f64`
threshold and ratio modelled as exact rationals: any NUL byte is immediately
binary; otherwise bytes outside `{TAB, LF, CR} ∪ [0x20, 0x7E]` are counted as
non-printable and the buffer is binary iff their ratio reaches the threshold
clamped to `[0, 1]`; an empty buffer is not binary. -/
def is_probably_binary_with_threshold (bytes : List Nat) (threshold : ℚ) :
    Bool :=
  if bytes.contains 0 then true
  else
    let nonPrintable :=
      (bytes.filter fun b =>
        !(b == 10 || b == 13 || b == 9 ||
          (decide (0x20 ≤ b) && decide (b ≤ 0x7E)))).length
    let total := bytes.length
    if total = 0 then false
    else decide ((nonPrintable : ℚ) / (total : ℚ) ≥ max 0 (min threshold 1))

/-- The non-printable byte count used by the binary classifier. -/
def nonPrintableCount (bytes : List Nat) : Nat :=
  (bytes.filter fun b =>
    !(b == 10 || b == 13 || b == 9 ||
      (decide (0x20 ≤ b) && decide (b ≤ 0x7E)))).length

/-- Metadata values stored in a `PreparedChunk` (the JSON values the handlers
actually insert: strings, numbers, and the two-element `row_range` array). -/
inductive MetaVal where
  | s (v : List Char)
  | n (v : Nat)
  | range (lo hi : Nat)
  deriving DecidableEq

/-- `PreparedChunk` (`main.rs:812-817`); `text` is kept as the UTF-8 bytes of
the Rust string. -/
structure PreparedChunk where
  text : List Nat
  chunk_index : Nat
  chunk_id_hint : Option (List Char)
  metadata : List (String × MetaVal)
  deriving DecidableEq

/-- `HandlerContext` (`main.rs:806-809`). -/
structure HandlerContext where
  allow_binary : Bool
  binary_threshold : ℚ
  deriving DecidableEq

/-- `HandlerConfig` (`main.rs:784-790`). -/
structure HandlerConfig where
  chunk_bytes : Option Nat
  overlap_bytes : Option Nat
  max_file_bytes : Option Nat
  heading_depth : Option Nat
  max_rows_per_chunk : Option Nat
  deriving DecidableEq

/-- `IngestConfig` (`main.rs:771-781`); the two maps are modelled as
association lists looked up by key equality. -/
structure IngestConfig where
  allow_extensions : Option (List (List Char))
  deny_extensions : Option (List (List Char))
  max_file_bytes : Option Nat
  manifest_path : Option (List Char)
  binary_threshold : Option ℚ
  allow_binary : Option Bool
  handlers_disabled : Option (List (List Char))
  handler_overrides : Option (List (List Char × HandlerConfig))
  force_handlers : Option (List (List Char × List Char))

/-- Association-list lookup, modelling `HashMap::get`. -/
def alistGet {α : Type} (key : List Char) : List (List Char × α) → Option α
  | [] => none
  | (k, v) :: rest => if k = key then some v else alistGet key rest

/-- `CodeLanguage` (`main.rs:1202-1209`). -/
inductive CodeLanguage where
  | rust
  | typescript
  | tsx
  | javascript
  | python
  deriving DecidableEq

/-- `language_from_extension` (`main.rs:1227-1242`). -/
def language_from_extension (path : List Char) : Option CodeLanguage :=
  match (pathExt path).map asciiLower with
  | some e =>
    if e = "rs".data then some .rust
    else if e = "ts".data then some .typescript
    else if e = "tsx".data then some .tsx
    else if e = "js".data then some .javascript
    else if e = "jsx".data then some .javascript
    else if e = "py".data then some .python
    else none
  | none => none

/-- The five registered handler kinds, in source order. -/
inductive HandlerKind where
  | code
  | markdown
  | data
  | text
  | binary
  deriving DecidableEq

/-- `IngestHandler::name` of each handler. -/
def handlerName : HandlerKind → List Char
  | .code => "code".data
  | .markdown => "markdown".data
  | .data => "data".data
  | .text => "text".data
  | .binary => "binary".data

/-- `supports` of each handler (`main.rs:1638-1646`, `1725-1733`,
`1800-1813`, `1853-1862`, `1932-1934`). -/
def handlerSupports (k : HandlerKind) (path : List Char) (bytes : List Nat)
    (ctx : HandlerContext) : Bool :=
  match k with
  | .code =>
    if !ctx.allow_binary &&
        is_probably_binary_with_threshold bytes ctx.binary_threshold then false
    else if (language_from_extension path).isNone then false
    else isValidUtf8 bytes
  | .markdown =>
    if !ctx.allow_binary &&
        is_probably_binary_with_threshold bytes ctx.binary_threshold then false
    else
      (pathExt path = some "md".data ∨ pathExt path = some "markdown".data) &&
        isValidUtf8 bytes
  | .data =>
    if !ctx.allow_binary &&
        is_probably_binary_with_threshold bytes ctx.binary_threshold then false
    else
      (pathExt path = some "csv".data ∨ pathExt path = some "json".data ∨
          pathExt path = some "jsonl".data) &&
        isValidUtf8 bytes
  | .text =>
    if !ctx.allow_binary &&
        is_probably_binary_with_threshold bytes ctx.binary_threshold then false
    else if !isValidUtf8 bytes then false
    else
      match pathExt path with
      | some ext =>
        let extL := asciiLower ext
        decide (extL ≠ "md".data ∧ extL ≠ "markdown".data ∧
          extL ≠ "csv".data ∧ extL ≠ "jsonl".data)
      | none => true
  | .binary => is_probably_binary_with_threshold bytes ctx.binary_threshold

/-- `handler_enabled` (`main.rs:1547-1552`). -/
def handler_enabled (name : List Char) (cfg : IngestConfig) : Bool :=
  match cfg.handlers_disabled with
  | some disabled => !disabled.any fun n => eqIgnoreAsciiCase n name
  | none => true

/-- `build_handlers` (`main.rs:1493-1545`): the registry in fixed priority
order Code, Markdown, Data, PlainText, Binary, each present when enabled and
— for Binary — only when the context allows binaries. The per-handler
chunking options are modelled as parameters of the process functions. -/
def build_handlers (cfg : IngestConfig) (ctx : HandlerContext) :
    List HandlerKind :=
  (if handler_enabled "code".data cfg then [HandlerKind.code] else []) ++
  (if handler_enabled "markdown".data cfg then [HandlerKind.markdown] else []) ++
  (if handler_enabled "data".data cfg then [HandlerKind.data] else []) ++
  (if handler_enabled "text".data cfg then [HandlerKind.text] else []) ++
  (if ctx.allow_binary && handler_enabled "binary".data cfg then
    [HandlerKind.binary] else [])

/-- `resolve_handler` (`main.rs:1591-1626`): a forced handler (by extension)
wins when its `supports` still accepts; otherwise the first accepting handler
in registry order; `none` means the file is skipped. -/
def resolve_handler (handlers : List HandlerKind) (cfg : IngestConfig)
    (path : List Char) (bytes : List Nat) (ctx : HandlerContext) :
    Option HandlerKind :=
  let ext := (pathExt path).map asciiLower
  let forced :=
    match cfg.force_handlers with
    | some force =>
      match ext with
      | some extVal =>
        match alistGet extVal force with
        | some target =>
          match handlers.find? fun h => eqIgnoreAsciiCase (handlerName h) target with
          | some h => if handlerSupports h path bytes ctx then some h else none
          | none => none
        | none => none
      | none => none
    | none => none
  match forced with
  | some h => some h
  | none => handlers.find? fun h => handlerSupports h path bytes ctx

/-- Modelled from the spec: handler resolution as §5 of the spec describes it
(forced handler by extension when its `supports` still accepts, else first
accepting handler in registry order, else skip), for comparison with
`resolve_handler`. -/
def specResolveHandler (handlers : List HandlerKind) (cfg : IngestConfig)
    (path : List Char) (bytes : List Nat) (ctx : HandlerContext) :
    Option HandlerKind :=
  let forced := do
    let force ← cfg.force_handlers
    let extVal ← (pathExt path).map asciiLower
    let target ← alistGet extVal force
    let h ← handlers.find? fun h => eqIgnoreAsciiCase (handlerName h) target
    if handlerSupports h path bytes ctx then some h else none
  forced <|> handlers.find? fun h => handlerSupports h path bytes ctx

/-- The built-in default `IngestConfig` (`main.rs:2146-2172`), used when the
policy file is missing or unparseable. -/
def defaultIngestConfig : IngestConfig where
  allow_extensions := some ["rs".data, "md".data, "toml".data, "json".data,
    "yml".data, "yaml".data, "ts".data, "tsx".data, "js".data, "jsx".data]
  deny_extensions := some ["lock".data, "bin".data, "exe".data, "dll".data]
  max_file_bytes := none
  manifest_path := none
  binary_threshold := some (33 / 100)
  allow_binary := some false
  handlers_disabled := none
  handler_overrides := none
  force_handlers := none

/-- Accumulator of `MarkdownHandler::process`'s line scan (`main.rs:1742-1744`). -/
structure MdState where
  heading : List Char
  body : List Char
  sections : List (List Char × List Char)
  deriving DecidableEq

/-- One iteration of the markdown line scan (`main.rs:1746-1760`): a line
whose `trim_start` begins with `#` first flushes a non-empty current body as
a section, then — only when its `#`-depth is at most `heading_depth` —
updates the current heading; every line is then appended (plus `\n`) to the
current body. -/
def mdStep (headingDepth : Nat) (st : MdState) (line : List Char) : MdState :=
  let trimmed := trimStart line
  let st1 :=
    if trimmed.head? = some '#' then
      let st0 :=
        if !st.body.isEmpty then
          { st with
              sections := st.sections ++ [(st.heading, st.body)]
              body := [] }
        else st
      let depth := (trimmed.takeWhile fun c => c = '#').length
      if depth ≤ headingDepth then
        { st0 with heading := rustTrim (trimmed.dropWhile fun c => c = '#') }
      else st0
    else st
  { st1 with body := st1.body ++ line ++ ['\n'] }

/-- The section list computed by `MarkdownHandler::process`
(`main.rs:1741-1764`): scan all lines, then flush a final non-empty body. -/
def markdownSections (content : List Char) (headingDepth : Nat) :
    List (List Char × List Char) :=
  let st := (rustLines content).foldl (mdStep headingDepth) ⟨[], [], []⟩
  if !st.body.isEmpty then st.sections ++ [(st.heading, st.body)]
  else st.sections

/-- `MarkdownHandler::process` (`main.rs:1735-1787`): each section body is
chunked with `chunk_with_overlap`; a chunk of section `global_idx` at
in-section position `idx` carries `chunk_index = global_idx + idx` and the
section's heading (when non-empty) as `markdown_heading`. -/
def markdownProcess (content : List Char)
    (chunkBytes overlapBytes headingDepth : Nat) : List PreparedChunk :=
  (markdownSections content headingDepth).enum.flatMap fun gs =>
    (chunk_with_overlap (utf8Encode gs.2.2) chunkBytes overlapBytes).enum.map
      fun ic =>
        { text := ic.2
          chunk_index := gs.1 + ic.1
          chunk_id_hint := none
          metadata :=
            ("ingest_mode", MetaVal.s "text".data) ::
              (if !gs.2.1.isEmpty then
                [("markdown_heading", MetaVal.s gs.2.1)]
              else []) }

/-- `PlainTextHandler::process` (`main.rs:1815-1837`). -/
def plainTextProcess (bytes : List Nat) (chunkBytes overlapBytes : Nat) :
    List PreparedChunk :=
  (chunk_with_overlap bytes chunkBytes overlapBytes).enum.map fun ic =>
    { text := ic.2
      chunk_index := ic.1
      chunk_id_hint := none
      metadata := [("ingest_mode", MetaVal.s "text".data)] }

/-- `BinaryHandler::process` (`main.rs:1936-1953`): one placeholder chunk. -/
def binaryProcess (path : List Char) (bytes : List Nat) : List PreparedChunk :=
  [{ text := utf8Encode ("<binary file: ".data ++ path ++ ">".data)
     chunk_index := 0
     chunk_id_hint := none
     metadata := [("ingest_mode", MetaVal.s "binary".data),
       ("binary_size", MetaVal.n bytes.length),
       ("binary_path", MetaVal.s path)] }]

/-- The `data_format` string chosen by `DataHandler::process`
(`main.rs:1871-1883`) from the lowercased extension. -/
def dataFormat (path : List Char) : List Char :=
  let ext := asciiLower ((pathExt path).getD [])
  if ext = "csv".data then "csv".data
  else if ext = "jsonl".data then "jsonl".data
  else "json".data

/-- Row-window loop of `DataHandler::process` (`main.rs:1890-1907`), fuelled:
from `start`, emit `[start, min (start + maxRows) total)` and continue at the
window end. The fuel passed by `dataProcess` is sufficient whenever
`max_rows_per_chunk > 0` (with `max_rows_per_chunk = 0` the Rust loop does
not terminate). -/
def rowWindowsGo (total maxRows : Nat) : Nat → Nat → List (Nat × Nat)
  | 0, _ => []
  | fuel + 1, start =>
    if start < total then
      let e := min (start + maxRows) total
      (start, e) :: rowWindowsGo total maxRows fuel e
    else []

/-- The `row_range` windows produced by `DataHandler::process` over `total`
rows. -/
def rowWindows (total maxRows : Nat) : List (Nat × Nat) :=
  rowWindowsGo total maxRows (total + 1) 0

/-- `DataHandler::process` (`main.rs:1864-1922`): group the lines into
windows of `max_rows_per_chunk` rows, one chunk per window (text = rows
joined by `\n`, metadata `ingest_mode`/`data_format`/`row_range`, indices
0, 1, …); when there are no rows, fall back to a single chunk holding the
whole content, without `row_range`. -/
def dataProcess (path : List Char) (content : List Char) (maxRows : Nat) :
    List PreparedChunk :=
  let fmt := dataFormat path
  let lines := rustLines content
  let chunks :=
    (rowWindows lines.length maxRows).enum.map fun iw =>
      { text := utf8Encode (joinNL ((lines.drop iw.2.1).take (iw.2.2 - iw.2.1)))
        chunk_index := iw.1
        chunk_id_hint := none
        metadata := [("ingest_mode", MetaVal.s "data".data),
          ("data_format", MetaVal.s fmt),
          ("row_range", MetaVal.range iw.2.1 iw.2.2)] }
  if chunks.isEmpty then
    [{ text := utf8Encode content
       chunk_index := 0
       chunk_id_hint := none
       metadata := [("ingest_mode", MetaVal.s "data".data)] }]
  else chunks

/-- `SymbolInfo` (`main.rs:1211-1217`): a symbol found by the (external)
tree-sitter traversal `extract_symbols`. -/
structure SymbolInfo where
  name : List Char
  kind : List Char
  start_byte : Nat
  end_byte : Nat
  deriving DecidableEq

/-- `SymbolChunk` (`main.rs:1219-1225`). -/
structure SymbolChunk where
  text : List Nat
  symbol : SymbolInfo
  part_index : Nat
  part_count : Nat
  deriving DecidableEq

/-- Blank test for a symbol slice, modelling `text.trim().is_empty()` on the
lossily decoded slice; whitespace beyond ASCII is not modelled (it only
affects which symbols are skipped, never the emptiness of an emitted text). -/
def blankBytes (bytes : List Nat) : Bool :=
  bytes.all fun b => decide ((0x9 ≤ b ∧ b ≤ 0xD) ∨ b = 0x20)

/-- `sanitize_symbol_name` (`main.rs:1366-1370`), with Rust
`char::is_alphanumeric` restricted to ASCII alphanumerics (the claims never
exercise non-ASCII symbol names). -/
def sanitize_symbol_name (name : List Char) : List Char :=
  name.map fun c =>
    if ('a' ≤ c ∧ c ≤ 'z') ∨ ('A' ≤ c ∧ c ≤ 'Z') ∨ ('0' ≤ c ∧ c ≤ '9') then c
    else '_'

/-- The per-symbol slicing of `chunk_code_symbols` (`main.rs:1372-1416`),
taking the symbol list produced by the external tree-sitter parser as a
parameter: out-of-range or inverted spans are skipped, blank slices are
skipped, spans longer than `chunk_bytes > 0` are split with
`chunk_with_overlap` (sharing `part_count`), other spans yield one part. -/
def chunk_code_symbols (content : List Nat) (chunkBytes overlapBytes : Nat)
    (symbols : List SymbolInfo) : List SymbolChunk :=
  if symbols.isEmpty then []
  else
    symbols.flatMap fun sym =>
      if sym.end_byte > content.length ∨ sym.start_byte ≥ sym.end_byte then []
      else
        let text :=
          (content.drop sym.start_byte).take (sym.end_byte - sym.start_byte)
        if blankBytes text then []
        else if 0 < chunkBytes ∧ chunkBytes < text.length then
          let parts := chunk_with_overlap text chunkBytes overlapBytes
          parts.enum.map fun ip =>
            { text := ip.2, symbol := sym, part_index := ip.1,
              part_count := parts.length }
        else [{ text := text, symbol := sym, part_index := 0, part_count := 1 }]

/-- `CodeHandler::process` (`main.rs:1648-1711`), parametrised by the symbol
list the tree-sitter pass extracted: symbol chunks when there are any, else
fall back to plain overlapped chunking; no language ⇒ no chunks. -/
def codeProcess (path : List Char) (content : List Nat)
    (chunkBytes overlapBytes : Nat) (symbols : List SymbolInfo) :
    List PreparedChunk :=
  match language_from_extension path with
  | none => []
  | some _ =>
    let symbolChunks := chunk_code_symbols content chunkBytes overlapBytes symbols
    if !symbolChunks.isEmpty then
      symbolChunks.enum.map fun isc =>
        { text := isc.2.text
          chunk_index := isc.1
          chunk_id_hint := some (path ++ "#sym-".data ++
            sanitize_symbol_name isc.2.symbol.name ++ "-".data ++
            natChars isc.2.symbol.start_byte ++ "-p".data ++
            natChars isc.2.part_index ++ "of".data ++
            natChars isc.2.part_count)
          metadata := [("ingest_mode", MetaVal.s "code".data)] }
    else
      (chunk_with_overlap content chunkBytes overlapBytes).enum.map fun ic =>
        { text := ic.2
          chunk_index := ic.1
          chunk_id_hint := none
          metadata := [("ingest_mode", MetaVal.s "code".data)] }

/-- `ManifestEntry` (`main.rs:793-797`). -/
structure ManifestEntry where
  hash : List Char
  mtime : Nat
  chunk_ids : List (List Char)
  deriving DecidableEq

/-- `IngestManifest` (`main.rs:799-803`); the file map is modelled as an
association list looked up by key equality. -/
structure IngestManifest where
  version : Nat
  files : List (List Char × ManifestEntry)
  deriving DecidableEq

/-- `HashMap::insert`: replace the entry of an existing key, else append. -/
def alistInsert {α : Type} (key : List Char) (val : α) :
    List (List Char × α) → List (List Char × α)
  | [] => [(key, val)]
  | (k, v) :: rest =>
    if k = key then (k, val) :: rest else (k, v) :: alistInsert key val rest

/-- `is_unchanged_in_manifest` (`main.rs:2190-2201`): true iff the manifest
holds an entry for the path with identical hash and identical mtime. -/
def is_unchanged_in_manifest (path : List Char) (manifest : IngestManifest)
    (file_hash : List Char) (mtime : Nat) : Bool :=
  match alistGet path manifest.files with
  | some entry => entry.hash = file_hash ∧ entry.mtime = mtime
  | none => false

/-- The two fallible collaborators of the driver loop and the (pure) content
hash: `label_chunk_with_mode` and the memory-store write
(`rag_agent.handle(MemoryRequest::Write ...)`), each taking the file path and
the chunk text and either succeeding or failing with an error `E`; `hashFn`
models `blake3::hash(..).to_hex()`. The payloads of successful calls do not
influence control flow or the manifest, so they are modelled as `Unit`. -/
structure DriverEffects (E : Type) where
  label : List Char → List Nat → Except E Unit
  write : List Char → List Nat → Except E Unit
  hashFn : List Nat → List Char

/-- One file reaching the chunk loop of `run_index_repo`: its path, content
hash, mtime, and the `PreparedChunk`s its resolved handler produced. -/
structure FileJob where
  path : List Char
  fileHash : List Char
  mtime : Nat
  chunks : List PreparedChunk

/-- Mutable state of the driver loop: the run-scoped dedup set of chunk
hashes and the in-memory manifest (`main.rs:985,1004`). -/
structure DriverState where
  seen : List (List Char)
  manifest : IngestManifest

/-- The chunk id recorded in the manifest (`main.rs:1066-1073`): the
handler's hint, or `path#chunk-{idx}-{hash8}`. -/
def chunkIdFor (path fileHash : List Char) (idx : Nat)
    (hint : Option (List Char)) : List Char :=
  hint.getD (path ++ "#chunk-".data ++ natChars idx ++ "-".data ++
    fileHash.take (min 8 fileHash.length))

/-- The chunk loop of `run_index_repo` (`main.rs:1054-1141`) for one file:
per chunk, hash and dedup-skip, else label then write (each aborting on
error via `?`), collecting the chunk ids for the manifest entry. -/
def processChunks {E : Type} (eff : DriverEffects E) (path fileHash : List Char) :
    Nat → DriverState → List (List Char) → List PreparedChunk →
    Except E (DriverState × List (List Char))
  | _, st, ids, [] => .ok (st, ids)
  | idx, st, ids, chunk :: rest =>
    let h := eff.hashFn chunk.text
    if h ∈ st.seen then processChunks eff path fileHash (idx + 1) st ids rest
    else
      match eff.label path chunk.text with
      | .error e => .error e
      | .ok _ =>
        match eff.write path chunk.text with
        | .error e => .error e
        | .ok _ =>
          processChunks eff path fileHash (idx + 1)
            { st with seen := h :: st.seen }
            (ids ++ [chunkIdFor path fileHash idx chunk.chunk_id_hint]) rest

/-- One iteration of the file loop (`main.rs:1048-1153`): process all chunks
of the file, then — only then — insert the file's manifest entry. -/
def processFile {E : Type} (eff : DriverEffects E) (st : DriverState)
    (job : FileJob) : Except E DriverState :=
  match processChunks eff job.path job.fileHash 0 st [] job.chunks with
  | .error e => .error e
  | .ok (st1, ids) =>
    .ok { st1 with
            manifest := { st1.manifest with
              files := alistInsert job.path
                ⟨job.fileHash, job.mtime, ids⟩ st1.manifest.files } }

/-- The file loop of `run_index_repo`: files strictly in order, any error
aborting the rest (`?` on `handler.process`, labels and writes). -/
def processFiles {E : Type} (eff : DriverEffects E) :
    DriverState → List FileJob → Except E DriverState
  | st, [] => .ok st
  | st, job :: rest =>
    match processFile eff st job with
    | .error e => .error e
    | .ok st1 => processFiles eff st1 rest

/-- `run_index_repo` from the point the per-file jobs are known
(`main.rs:1004-1163`): run the file loop, then persist the manifest once via
`save_manifest`; the returned manifest is exactly what is persisted, so an
aborted run persists nothing. -/
def runIndexRepoModel {E : Type} (eff : DriverEffects E) (jobs : List FileJob)
    (manifest0 : IngestManifest) : Except E IngestManifest :=
  match processFiles eff ⟨[], manifest0⟩ jobs with
  | .error e => .error e
  | .ok st => .ok st.manifest

/-- The manifest a finished run persisted, `none` when the run aborted. -/
def persistedManifest {E : Type} : Except E IngestManifest →
    Option IngestManifest
  | .error _ => none
  | .ok m => some m

/-- A buffer containing a NUL byte is always classified binary. -/
theorem binary_of_contains_zero (bytes : List Nat) (t : ℚ)
    (h : bytes.contains 0 = true) :
    is_probably_binary_with_threshold bytes t = true := by
  have hmem : 0 ∈ bytes := by simpa using h
  simp [is_probably_binary_with_threshold, h, hmem]

/-- Without NUL bytes and with a nonempty buffer, the classifier is the
clamped-threshold ratio test. -/
theorem binary_eval (bytes : List Nat) (t : ℚ)
    (h0 : bytes.contains 0 = false) (hlen : bytes.length ≠ 0) :
    is_probably_binary_with_threshold bytes t =
      decide ((nonPrintableCount bytes : ℚ) / (bytes.length : ℚ) ≥
        max 0 (min t 1)) := by
  simp only [is_probably_binary_with_threshold, nonPrintableCount, h0,
    Bool.false_eq_true, if_false, if_neg hlen]

/-- A nonempty NUL-free buffer with no non-printable bytes is not binary for
any threshold in `(0, 1]`. -/
theorem classifier_not_binary (bytes : List Nat) (t : ℚ)
    (h0 : bytes.contains 0 = false) (hc : nonPrintableCount bytes = 0)
    (hlen : bytes.length ≠ 0) (ht : 0 < t) :
    is_probably_binary_with_threshold bytes t = false := by
  rw [binary_eval bytes t h0 hlen, hc]
  have h1 : (0 : ℚ) < min t 1 := lt_min ht one_pos
  rw [max_eq_right h1.le]
  simp only [Nat.cast_zero, zero_div, ge_iff_le, decide_eq_false_iff_not,
    not_le]
  exact h1

/-- When the classifier says "not binary", each handler's `supports`
predicate reduces to its extension/UTF-8 test (and the binary handler
rejects). -/
theorem handlerSupports_of_not_binary (k : HandlerKind) (path : List Char)
    (bytes : List Nat) (ctx : HandlerContext)
    (hb : is_probably_binary_with_threshold bytes ctx.binary_threshold = false) :
    handlerSupports k path bytes ctx =
      match k with
      | .code => !(language_from_extension path).isNone && isValidUtf8 bytes
      | .markdown =>
        decide (pathExt path = some "md".data ∨
          pathExt path = some "markdown".data) && isValidUtf8 bytes
      | .data =>
        decide (pathExt path = some "csv".data ∨
          pathExt path = some "json".data ∨
          pathExt path = some "jsonl".data) && isValidUtf8 bytes
      | .text =>
        isValidUtf8 bytes &&
          (match pathExt path with
          | some ext =>
            decide (asciiLower ext ≠ "md".data ∧
              asciiLower ext ≠ "markdown".data ∧
              asciiLower ext ≠ "csv".data ∧ asciiLower ext ≠ "jsonl".data)
          | none => true)
      | .binary => false := by
  cases k with
  | code =>
    simp only [handlerSupports, hb, Bool.and_false, Bool.false_eq_true,
      if_false]
    cases hl : language_from_extension path <;> simp [hl]
  | markdown =>
    simp [handlerSupports, hb]
  | data =>
    simp [handlerSupports, hb]
  | text =>
    simp only [handlerSupports, hb, Bool.and_false, Bool.false_eq_true,
      if_false]
    cases hu : isValidUtf8 bytes <;> cases hext : pathExt path <;> simp [hu]
  | binary =>
    simpa using hb

/-- C5: `is_unchanged_in_manifest` is true iff the manifest stores an entry
for the path with identical hash AND identical mtime; in particular, for a
stored entry a different content hash makes the check false even when the
supplied mtime equals the stored one. -/
theorem C5_is_unchanged_in_manifest_iff (path : List Char)
    (manifest : IngestManifest) (fileHash : List Char) (mtime : Nat) :
    (is_unchanged_in_manifest path manifest fileHash mtime = true ↔
      ∃ entry, alistGet path manifest.files = some entry ∧
        entry.hash = fileHash ∧ entry.mtime = mtime) ∧
    (∀ entry otherHash, alistGet path manifest.files = some entry →
      otherHash ≠ entry.hash →
      is_unchanged_in_manifest path manifest otherHash entry.mtime = false) := by
  constructor
  · unfold is_unchanged_in_manifest
    cases h : alistGet path manifest.files with
    | none => simp
    | some entry => simp [h]
  · intro entry otherHash hget hne
    unfold is_unchanged_in_manifest
    rw [hget]
    simp
    intro hh
    exact absurd hh.symm hne

/-- C5 witness: concrete manifest where a matching entry answers true and a
hash mismatch with matching mtime answers false. -/
theorem C5_is_unchanged_in_manifest_iff_witness :
    is_unchanged_in_manifest "a".data
      ⟨1, [("a".data, ⟨"h1".data, 5, []⟩)]⟩ "h2".data 5 = false := by
  exact (C5_is_unchanged_in_manifest_iff "a".data
    ⟨1, [("a".data, ⟨"h1".data, 5, []⟩)]⟩ "h2".data 5).2
    ⟨"h1".data, 5, []⟩ "h2".data (by decide) (by decide)

/-- C2: the binary classifier returns true immediately when any byte is NUL;
an empty buffer is never binary; otherwise it is binary exactly when the
ratio of non-printable bytes (outside TAB/LF/CR and printable ASCII) reaches
the threshold clamped to `[0, 1]`. -/
theorem C2_binary_classifier (bytes : List Nat) (threshold : ℚ) :
    (0 ∈ bytes → is_probably_binary_with_threshold bytes threshold = true) ∧
    (bytes = [] → is_probably_binary_with_threshold bytes threshold = false) ∧
    (0 ∉ bytes → bytes ≠ [] →
      (is_probably_binary_with_threshold bytes threshold = true ↔
        (nonPrintableCount bytes : ℚ) / (bytes.length : ℚ) ≥
          max 0 (min threshold 1))) := by
  refine ⟨fun hmem => ?_, fun hnil => ?_, fun hmem hnil => ?_⟩
  · have hct : bytes.contains 0 = true := by simpa using hmem
    simp [is_probably_binary_with_threshold, hct, hmem]
  · subst hnil
    simp [is_probably_binary_with_threshold]
  · have hc : bytes.contains 0 = false := by simpa using hmem
    have hlen : bytes.length ≠ 0 := by simpa using hnil
    simp only [is_probably_binary_with_threshold, nonPrintableCount, hc,
      Bool.false_eq_true, if_false, if_neg hlen, decide_eq_true_eq, ge_iff_le]

/-- C2 witness: at threshold 0 a NUL byte gives binary, the empty buffer is
not binary, and a nonempty NUL-free buffer meets the ratio test. -/
theorem C2_binary_classifier_witness :
    is_probably_binary_with_threshold [0] 0 = true ∧
    is_probably_binary_with_threshold [] 0 = false ∧
    is_probably_binary_with_threshold [0xFF] 0 = true := by
  refine ⟨(C2_binary_classifier [0] 0).1 (by decide),
    (C2_binary_classifier [] 0).2.1 rfl,
    ((C2_binary_classifier [0xFF] 0).2.2 (by decide) (by decide)).mpr ?_⟩
  have hmax : max (0 : ℚ) (min 0 1) = 0 := by simp
  rw [hmax]
  exact div_nonneg (Nat.cast_nonneg _) (Nat.cast_nonneg _)

/-- C10: for a non-binary, UTF-8-decodable buffer the plain-text handler's
`supports` rejects exactly the lowercased extensions md, markdown, csv and
jsonl, accepting every other extension and extensionless paths; in
particular it accepts `.json` files, and with the data handler disabled a
UTF-8 `.json` file resolves to the plain-text handler. -/
theorem C10_plain_text_supports (path : List Char) (bytes : List Nat)
    (ctx : HandlerContext)
    (hbin : is_probably_binary_with_threshold bytes ctx.binary_threshold = false)
    (hutf : isValidUtf8 bytes = true) :
    (handlerSupports .text path bytes ctx = true ↔
      match pathExt path with
      | none => True
      | some ext =>
        asciiLower ext ≠ "md".data ∧ asciiLower ext ≠ "markdown".data ∧
          asciiLower ext ≠ "csv".data ∧ asciiLower ext ≠ "jsonl".data) ∧
    handlerSupports .text "foo.json".data bytes ctx = true ∧
    resolve_handler
      (build_handlers
        { defaultIngestConfig with handlers_disabled := some ["data".data] }
        ⟨false, 33 / 100⟩)
      { defaultIngestConfig with handlers_disabled := some ["data".data] }
      "foo.json".data (utf8Encode "{}".data) ⟨false, 33 / 100⟩ =
      some .text := by
  have hgate : (!ctx.allow_binary &&
      is_probably_binary_with_threshold bytes ctx.binary_threshold) = false := by
    rw [hbin]; simp
  have hb : is_probably_binary_with_threshold (utf8Encode "{}".data)
      ((33 : ℚ) / 100) = false :=
    classifier_not_binary _ _ (by decide) (by decide) (by decide)
      (by norm_num)
  refine ⟨?_, ?_, ?_⟩
  · simp only [handlerSupports, hgate, Bool.false_eq_true, if_false, hutf,
      Bool.not_true, decide_eq_true_eq]
    cases hext : pathExt path with
    | none => simp
    | some ext => simp
  · simp only [handlerSupports, hgate, Bool.false_eq_true, if_false, hutf,
      Bool.not_true, decide_eq_true_eq]
    decide
  · have hs := fun k => handlerSupports_of_not_binary k "foo.json".data
      (utf8Encode "{}".data) ⟨false, 33 / 100⟩ hb
    have hreg : build_handlers
        { defaultIngestConfig with handlers_disabled := some ["data".data] }
        ⟨false, 33 / 100⟩ = [.code, .markdown, .text] := rfl
    simp only [resolve_handler, hreg, hs]
    decide

/-- C3: handler resolution tries the policy's forced handler (by extension,
when its `supports` still accepts) first and otherwise picks the first
accepting handler in the fixed registry order Code, Markdown, Data,
PlainText, Binary — Binary registered only when binaries are allowed; when
no handler accepts, resolution yields `none` (the file is skipped, not an
error). Under the default policy: `main.rs` → Code, `readme.md` → Markdown,
`data.csv` → Data, `notes.txt` → PlainText, and a detected-binary file →
Binary exactly when binaries are allowed. -/
theorem C3_resolve_handler_spec :
    (∀ cfg ctx, cfg.handlers_disabled = none →
      build_handlers cfg ctx =
        [.code, .markdown, .data, .text] ++
          (if ctx.allow_binary then [.binary] else [])) ∧
    (∀ handlers cfg path bytes ctx,
      resolve_handler handlers cfg path bytes ctx =
        specResolveHandler handlers cfg path bytes ctx) ∧
    (∀ handlers cfg path bytes ctx,
      (∀ h ∈ handlers, handlerSupports h path bytes ctx = false) →
      resolve_handler handlers cfg path bytes ctx = none) ∧
    resolve_handler (build_handlers defaultIngestConfig ⟨false, 33 / 100⟩)
      defaultIngestConfig "main.rs".data (utf8Encode "fn main() {}".data)
      ⟨false, 33 / 100⟩ = some .code ∧
    resolve_handler (build_handlers defaultIngestConfig ⟨false, 33 / 100⟩)
      defaultIngestConfig "readme.md".data (utf8Encode "# hi\n".data)
      ⟨false, 33 / 100⟩ = some .markdown ∧
    resolve_handler (build_handlers defaultIngestConfig ⟨false, 33 / 100⟩)
      defaultIngestConfig "data.csv".data (utf8Encode "a,b\n1,2".data)
      ⟨false, 33 / 100⟩ = some .data ∧
    resolve_handler (build_handlers defaultIngestConfig ⟨false, 33 / 100⟩)
      defaultIngestConfig "notes.txt".data (utf8Encode "hello\n".data)
      ⟨false, 33 / 100⟩ = some .text ∧
    resolve_handler (build_handlers defaultIngestConfig ⟨true, 33 / 100⟩)
      defaultIngestConfig "blob.bin".data [0, 159, 146, 150]
      ⟨true, 33 / 100⟩ = some .binary ∧
    resolve_handler (build_handlers defaultIngestConfig ⟨false, 33 / 100⟩)
      defaultIngestConfig "blob.bin".data [0, 159, 146, 150]
      ⟨false, 33 / 100⟩ = none := by
  have hreg : build_handlers defaultIngestConfig ⟨false, 33 / 100⟩ =
      [.code, .markdown, .data, .text] := rfl
  have hregT : build_handlers defaultIngestConfig ⟨true, 33 / 100⟩ =
      [.code, .markdown, .data, .text, .binary] := rfl
  have hbBin : is_probably_binary_with_threshold [0, 159, 146, 150]
      ((33 : ℚ) / 100) = true := binary_of_contains_zero _ _ (by decide)
  refine ⟨?_, ?_, ?_, ?_, ?_, ?_, ?_, ?_, ?_⟩
  · intro cfg ctx h
    cases hab : ctx.allow_binary <;>
      simp [build_handlers, handler_enabled, h, hab]
  · intro handlers cfg path bytes ctx
    unfold resolve_handler specResolveHandler
    cases hf : cfg.force_handlers with
    | none => simp
    | some force =>
      cases he : (pathExt path).map asciiLower with
      | none => simp
      | some extVal =>
        cases hg : alistGet extVal force with
        | none => simp [hg]
        | some target =>
          cases hfind : handlers.find? fun h =>
              eqIgnoreAsciiCase (handlerName h) target with
          | none => simp [hg, hfind]
          | some h =>
            cases hsup : handlerSupports h path bytes ctx <;>
              simp [hg, hfind, hsup]
  · intro handlers cfg path bytes ctx hall
    have hnone : (handlers.find? fun h =>
        handlerSupports h path bytes ctx) = none :=
      List.find?_eq_none.mpr fun x hx => by simp [hall x hx]
    unfold resolve_handler
    cases hf : cfg.force_handlers with
    | none => simp only [hnone]
    | some force =>
      cases he : (pathExt path).map asciiLower with
      | none => simp only [hnone]
      | some extVal =>
        cases hg : alistGet extVal force with
        | none => simp only [hg, hnone]
        | some target =>
          cases hfind : handlers.find? fun h =>
              eqIgnoreAsciiCase (handlerName h) target with
          | none => simp only [hg, hfind, hnone]
          | some h =>
            have hmem := List.mem_of_find?_eq_some hfind
            simp only [hg, hfind, hall h hmem, Bool.false_eq_true, if_false,
              hnone]
  · have hb : is_probably_binary_with_threshold
        (utf8Encode "fn main() {}".data) ((33 : ℚ) / 100) = false :=
      classifier_not_binary _ _ (by decide) (by decide) (by decide)
        (by norm_num)
    have hs := fun k => handlerSupports_of_not_binary k "main.rs".data
      (utf8Encode "fn main() {}".data) ⟨false, 33 / 100⟩ hb
    simp only [resolve_handler, hreg, hs]
    decide
  · have hb : is_probably_binary_with_threshold
        (utf8Encode "# hi\n".data) ((33 : ℚ) / 100) = false :=
      classifier_not_binary _ _ (by decide) (by decide) (by decide)
        (by norm_num)
    have hs := fun k => handlerSupports_of_not_binary k "readme.md".data
      (utf8Encode "# hi\n".data) ⟨false, 33 / 100⟩ hb
    simp only [resolve_handler, hreg, hs]
    decide
  · have hb : is_probably_binary_with_threshold
        (utf8Encode "a,b\n1,2".data) ((33 : ℚ) / 100) = false :=
      classifier_not_binary _ _ (by decide) (by decide) (by decide)
        (by norm_num)
    have hs := fun k => handlerSupports_of_not_binary k "data.csv".data
      (utf8Encode "a,b\n1,2".data) ⟨false, 33 / 100⟩ hb
    simp only [resolve_handler, hreg, hs]
    decide
  · have hb : is_probably_binary_with_threshold
        (utf8Encode "hello\n".data) ((33 : ℚ) / 100) = false :=
      classifier_not_binary _ _ (by decide) (by decide) (by decide)
        (by norm_num)
    have hs := fun k => handlerSupports_of_not_binary k "notes.txt".data
      (utf8Encode "hello\n".data) ⟨false, 33 / 100⟩ hb
    simp only [resolve_handler, hreg, hs]
    decide
  · simp only [resolve_handler, hregT, handlerSupports, hbBin]
    decide
  · simp only [resolve_handler, hreg, handlerSupports, hbBin]
    decide

/-- C3 witness: the registry under the default policy with binaries allowed,
and resolution skipping a file no handler accepts. -/
theorem C3_resolve_handler_spec_witness :
    build_handlers defaultIngestConfig ⟨true, 1⟩ =
      [.code, .markdown, .data, .text, .binary] ∧
    resolve_handler [HandlerKind.binary] defaultIngestConfig "x.rs".data []
      ⟨false, 1⟩ = none := by
  constructor
  · exact (C3_resolve_handler_spec.1 defaultIngestConfig ⟨true, 1⟩ rfl).trans
      (by decide)
  · exact C3_resolve_handler_spec.2.2.1 [HandlerKind.binary]
      defaultIngestConfig "x.rs".data [] ⟨false, 1⟩
      (by intro h hm; simp at hm; subst hm; decide)

/-- The slice loop of `chunk_with_overlap` emits exactly the byte windows of
its offset trace. -/
theorem chunkGo_eq_offsets (bytes : List Nat) (c o : Nat) :
    ∀ fuel start, chunkGo bytes c o fuel start =
      (chunkOffsetsGo bytes.length c o fuel start).map
        fun p => (bytes.drop p.1).take (p.2 - p.1) := by
  intro fuel
  induction fuel with
  | zero => intro start; rfl
  | succ n ih =>
    intro start
    simp only [chunkGo, chunkOffsetsGo]
    by_cases hs : start < bytes.length
    · rw [if_pos hs, if_pos hs]
      by_cases hel : min (start + c) bytes.length = bytes.length
      · rw [if_pos hel, if_pos hel]
        rfl
      · rw [if_neg hel, if_neg hel]
        rw [List.map_cons, ih]
    · rw [if_neg hs, if_neg hs]
      rfl

/-- Loop invariant of the offset trace in the regime
`0 < overlap < chunk < len`: from any position the trace is nonempty, starts
at `start`, ends at `len`, its consecutive windows step back by exactly
`min overlap (min chunk windowLength) = overlap`, and every window is
`[s, min (s + chunk) len)` with `s < e`. -/
theorem chunkOffsetsGo_spec (len c o : Nat) (h1 : 0 < o) (h2 : o < c)
    (h3 : c < len) :
    ∀ fuel start, start < len → len - start ≤ fuel →
      (chunkOffsetsGo len c o fuel start).head? =
        some (start, min (start + c) len) ∧
      ((chunkOffsetsGo len c o fuel start).getLast?).map Prod.snd =
        some len ∧
      List.Chain' (fun p q =>
        q.1 + min (min o c) (p.2 - p.1) = p.2 ∧
        min (min o c) (p.2 - p.1) = o ∧ p.1 < q.1)
        (chunkOffsetsGo len c o fuel start) ∧
      ∀ p ∈ chunkOffsetsGo len c o fuel start,
        p.2 = min (p.1 + c) len ∧ p.1 < p.2 := by
  intro fuel
  induction fuel with
  | zero => intro start hs hf; omega
  | succ n ih =>
    intro start hs hf
    simp only [chunkOffsetsGo]
    rw [if_pos hs]
    by_cases hel : min (start + c) len = len
    · rw [if_pos hel]
      refine ⟨rfl, by simp [hel], List.chain'_singleton _, ?_⟩
      intro p hp
      simp only [List.mem_singleton] at hp
      subst hp
      exact ⟨rfl, by omega⟩
    · rw [if_neg hel]
      have he : min (start + c) len = start + c := by omega
      have hov : min (min o c) (min (start + c) len - start) = o := by omega
      rw [he] at hov ⊢
      have hlt : start + c - o < len := by omega
      have hfu : len - (start + c - o) ≤ n := by omega
      obtain ⟨ihHead, ihLast, ihChain, ihAll⟩ := ih (start + c - o) hlt hfu
      rw [hov]
      obtain ⟨tail, htail⟩ : ∃ tail, chunkOffsetsGo len c o n (start + c - o) =
          (start + c - o, min (start + c - o + c) len) :: tail := by
        cases hcg : chunkOffsetsGo len c o n (start + c - o) with
        | nil => rw [hcg] at ihHead; simp at ihHead
        | cons a tail =>
          rw [hcg] at ihHead
          simp only [List.head?_cons, Option.some.injEq] at ihHead
          exact ⟨tail, by rw [ihHead]⟩
      refine ⟨rfl, ?_, ?_, ?_⟩
      · rw [htail] at ihLast ⊢
        rw [List.getLast?_cons_cons]
        exact ihLast
      · rw [htail] at ihChain ⊢
        refine List.Chain'.cons ?_ ihChain
        refine ⟨?_, ?_, ?_⟩
        · show start + c - o + min (min o c) (start + c - start) = start + c
          omega
        · show min (min o c) (start + c - start) = o
          omega
        · show start < start + c - o
          omega
      · intro p hp
        rcases List.mem_cons.mp hp with hp | hp
        · subst hp
          refine ⟨?_, ?_⟩
          · show start + c = min (start + c) len
            omega
          · show start < start + c
            omega
        · exact ihAll p hp

/-- C1: for `0 < overlap_bytes < chunk_bytes < len`, `chunk_with_overlap`
returns the byte windows of a nonempty offset list whose starts strictly
increase, whose first window starts at 0, whose last window ends at `len`,
where each window is `[s, min (s + chunk_bytes) len)`, and where each
consecutive pair overlaps by exactly
`min(overlap_bytes, chunk_bytes, previous window length)` bytes — which
under these hypotheses is exactly `overlap_bytes` (the next window starts at
the previous end minus that overlap). -/
theorem C1_chunk_with_overlap_spec (bytes : List Nat) (c o : Nat)
    (h1 : 0 < o) (h2 : o < c) (h3 : c < bytes.length) :
    chunk_with_overlap bytes c o =
      (chunkOffsets bytes.length c o).map
        (fun p => (bytes.drop p.1).take (p.2 - p.1)) ∧
    chunkOffsets bytes.length c o ≠ [] ∧
    (chunkOffsets bytes.length c o).head?.map Prod.fst = some 0 ∧
    (chunkOffsets bytes.length c o).getLast?.map Prod.snd =
      some bytes.length ∧
    List.Pairwise (fun p q => p.1 < q.1) (chunkOffsets bytes.length c o) ∧
    List.Chain' (fun p q =>
      q.1 + min (min o c) (p.2 - p.1) = p.2 ∧
      min (min o c) (p.2 - p.1) = o ∧ p.1 < q.1)
      (chunkOffsets bytes.length c o) ∧
    ∀ p ∈ chunkOffsets bytes.length c o,
      p.2 = min (p.1 + c) bytes.length ∧ p.1 < p.2 := by
  have hc0 : c ≠ 0 := by omega
  have hstart : 0 < bytes.length := by omega
  have hfuel : bytes.length - 0 ≤ bytes.length + 1 := by omega
  obtain ⟨hHead, hLast, hChain, hAll⟩ :=
    chunkOffsetsGo_spec bytes.length c o h1 h2 h3 (bytes.length + 1) 0
      hstart hfuel
  have hoff : chunkOffsets bytes.length c o =
      chunkOffsetsGo bytes.length c o (bytes.length + 1) 0 := by
    simp [chunkOffsets, hc0]
  have hmap : chunk_with_overlap bytes c o =
      (chunkOffsets bytes.length c o).map
        (fun p => (bytes.drop p.1).take (p.2 - p.1)) := by
    rw [hoff, chunk_with_overlap, if_neg hc0, chunkGo_eq_offsets]
  refine ⟨hmap, ?_, ?_, ?_, ?_, ?_, ?_⟩
  · rw [hoff]
    intro hnil
    rw [hnil] at hHead
    simp at hHead
  · rw [hoff, hHead]
    rfl
  · rw [hoff]
    exact hLast
  · rw [hoff]
    haveI : IsTrans (Nat × Nat) (fun p q => p.1 < q.1) :=
      ⟨fun a b d hab hbd => lt_trans hab hbd⟩
    exact List.chain'_iff_pairwise.mp
      (hChain.imp fun a b hab => hab.2.2)
  · rw [hoff]
    exact hChain
  · rw [hoff]
    exact hAll

/-- C1 witness: a 5-byte buffer with chunk 4 and overlap 1 yields windows
`[0,4)` and `[3,5)`. -/
theorem C1_chunk_with_overlap_spec_witness :
    chunk_with_overlap [1, 2, 3, 4, 5] 4 1 = [[1, 2, 3, 4], [4, 5]] ∧
    chunkOffsets 5 4 1 = [(0, 4), (3, 5)] := by
  have h := C1_chunk_with_overlap_spec [1, 2, 3, 4, 5] 4 1 (by decide)
    (by decide) (by decide)
  have hoff : chunkOffsets 5 4 1 = [(0, 4), (3, 5)] := by decide
  refine ⟨?_, hoff⟩
  rw [h.1]
  decide

/-- The row-window loop stops at or past `total`. -/
theorem rowWindowsGo_stop (total m : Nat) :
    ∀ fuel start, ¬ start < total → rowWindowsGo total m fuel start = [] := by
  intro fuel start h
  cases fuel with
  | zero => rfl
  | succ n => simp only [rowWindowsGo, if_neg h]

/-- Loop invariant of the data handler's row windows for `0 < maxRows`: from
any `start < total` the window list is nonempty, starts at `start`, chains
contiguously (`next start = previous end`), ends at `total`, and each window
is `[s, min (s + maxRows) total)`. -/
theorem rowWindowsGo_spec (total m : Nat) (hm : 0 < m) :
    ∀ fuel start, start < total → total - start ≤ fuel →
      (rowWindowsGo total m fuel start).head? =
        some (start, min (start + m) total) ∧
      ((rowWindowsGo total m fuel start).getLast?).map Prod.snd =
        some total ∧
      List.Chain' (fun p q => q.1 = p.2) (rowWindowsGo total m fuel start) ∧
      ∀ p ∈ rowWindowsGo total m fuel start,
        p.2 = min (p.1 + m) total ∧ p.1 < p.2 := by
  intro fuel
  induction fuel with
  | zero => intro start hs hf; omega
  | succ n ih =>
    intro start hs hf
    simp only [rowWindowsGo]
    rw [if_pos hs]
    by_cases he : min (start + m) total = total
    · rw [he, rowWindowsGo_stop total m n total (by omega)]
      refine ⟨rfl, by simp, List.chain'_singleton _, ?_⟩
      intro p hp
      simp only [List.mem_singleton] at hp
      subst hp
      refine ⟨?_, ?_⟩
      · show total = min (start + m) total
        omega
      · show start < total
        omega
    · have he2 : min (start + m) total = start + m := by omega
      have hlt : start + m < total := by omega
      obtain ⟨ihHead, ihLast, ihChain, ihAll⟩ :=
        ih (min (start + m) total) (by omega) (by omega)
      obtain ⟨tail, htail⟩ : ∃ tail,
          rowWindowsGo total m n (min (start + m) total) =
            (min (start + m) total,
              min (min (start + m) total + m) total) :: tail := by
        cases hcg : rowWindowsGo total m n (min (start + m) total) with
        | nil => rw [hcg] at ihHead; simp at ihHead
        | cons a tail =>
          rw [hcg] at ihHead
          simp only [List.head?_cons, Option.some.injEq] at ihHead
          exact ⟨tail, by rw [ihHead]⟩
      refine ⟨rfl, ?_, ?_, ?_⟩
      · rw [htail] at ihLast ⊢
        rw [List.getLast?_cons_cons]
        exact ihLast
      · rw [htail] at ihChain ⊢
        exact List.Chain'.cons rfl ihChain
      · intro p hp
        rcases List.mem_cons.mp hp with hp | hp
        · subst hp
          exact ⟨rfl, by omega⟩
        · exact ihAll p hp

/-- C6: for `0 < max_rows_per_chunk`, the data handler groups the file's
lines into contiguous windows of `max_rows_per_chunk` rows (the last may be
shorter) running from row 0 to the last row, one chunk per window carrying
the joined rows as text, `chunk_index` 0, 1, …, `ingest_mode "data"`, the
extension-derived `data_format` and `row_range [start, end)`; zero rows
produce exactly one fallback chunk holding the whole content with
`ingest_mode "data"` and no `row_range`; so there is always at least one
chunk. CSV `"a,b\n1,2\n3,4"` with `max_rows_per_chunk = 2` yields exactly
two chunks with row ranges `[0,2)` and `[2,3)`. -/
theorem C6_data_process_spec (path content : List Char) (m : Nat)
    (hm : 0 < m) :
    (rustLines content = [] →
      dataProcess path content m =
        [{ text := utf8Encode content
           chunk_index := 0
           chunk_id_hint := none
           metadata := [("ingest_mode", MetaVal.s "data".data)] }]) ∧
    (rustLines content ≠ [] →
      dataProcess path content m =
        (rowWindows (rustLines content).length m).enum.map (fun iw =>
          { text := utf8Encode (joinNL
              (((rustLines content).drop iw.2.1).take (iw.2.2 - iw.2.1)))
            chunk_index := iw.1
            chunk_id_hint := none
            metadata := [("ingest_mode", MetaVal.s "data".data),
              ("data_format", MetaVal.s (dataFormat path)),
              ("row_range", MetaVal.range iw.2.1 iw.2.2)] }) ∧
      (rowWindows (rustLines content).length m).head? =
        some (0, min m (rustLines content).length) ∧
      ((rowWindows (rustLines content).length m).getLast?).map Prod.snd =
        some (rustLines content).length ∧
      List.Chain' (fun p q => q.1 = p.2)
        (rowWindows (rustLines content).length m) ∧
      ∀ p ∈ rowWindows (rustLines content).length m,
        p.2 = min (p.1 + m) (rustLines content).length ∧ p.1 < p.2) ∧
    dataProcess path content m ≠ [] ∧
    (dataProcess "data.csv".data "a,b\n1,2\n3,4".data 2).map
        (fun ch => (ch.text, ch.chunk_index, ch.metadata)) =
      [(utf8Encode "a,b\n1,2".data, 0,
        [("ingest_mode", MetaVal.s "data".data),
         ("data_format", MetaVal.s "csv".data),
         ("row_range", MetaVal.range 0 2)]),
       (utf8Encode "3,4".data, 1,
        [("ingest_mode", MetaVal.s "data".data),
         ("data_format", MetaVal.s "csv".data),
         ("row_range", MetaVal.range 2 3)])] := by
  have hfall : rustLines content = [] →
      dataProcess path content m =
        [{ text := utf8Encode content
           chunk_index := 0
           chunk_id_hint := none
           metadata := [("ingest_mode", MetaVal.s "data".data)] }] := by
    intro h
    simp [dataProcess, h, rowWindows, rowWindowsGo]
  refine ⟨hfall, ?_, ?_, by decide⟩
  · intro h
    have htot : 0 < (rustLines content).length := List.length_pos.mpr h
    obtain ⟨hHead, hLast, hChain, hAll⟩ :=
      rowWindowsGo_spec (rustLines content).length m hm
        ((rustLines content).length + 1) 0 htot (by omega)
    have hwin : rowWindows (rustLines content).length m =
        rowWindowsGo (rustLines content).length m
          ((rustLines content).length + 1) 0 := rfl
    have hne : rowWindows (rustLines content).length m ≠ [] := by
      rw [hwin]
      intro hnil
      rw [hnil] at hHead
      simp at hHead
    refine ⟨?_, by rw [hwin]; simpa using hHead, by rw [hwin]; exact hLast,
      by rw [hwin]; exact hChain, by rw [hwin]; exact hAll⟩
    have hemp : ((rowWindows (rustLines content).length m).enum.map
        (fun iw : Nat × Nat × Nat =>
          ({ text := utf8Encode (joinNL
              (((rustLines content).drop iw.2.1).take (iw.2.2 - iw.2.1)))
             chunk_index := iw.1
             chunk_id_hint := none
             metadata := [("ingest_mode", MetaVal.s "data".data),
               ("data_format", MetaVal.s (dataFormat path)),
               ("row_range", MetaVal.range iw.2.1 iw.2.2)] } :
            PreparedChunk))).isEmpty = false := by
      simp [List.isEmpty_iff, hne]
    simp only [dataProcess, hemp, Bool.false_eq_true, if_false]
  · simp only [dataProcess]
    split
    · simp
    · next hfalse =>
        exact fun hn => hfalse (by rw [hn]; rfl)

/-- C6 witness: empty content takes the fallback branch; the CSV example
yields a nonempty chunk list. -/
theorem C6_data_process_spec_witness :
    dataProcess "x.csv".data "".data 2 =
      [{ text := utf8Encode "".data
         chunk_index := 0
         chunk_id_hint := none
         metadata := [("ingest_mode", MetaVal.s "data".data)] }] ∧
    dataProcess "data.csv".data "a,b\n1,2\n3,4".data 2 ≠ [] := by
  refine ⟨(C6_data_process_spec "x.csv".data "".data 2 (by decide)).1
    (by decide), ?_⟩
  exact (C6_data_process_spec "data.csv".data "a,b\n1,2\n3,4".data 2
    (by decide)).2.2.1

/-- C7 counterexample: with `heading_depth = 1` the deeper heading line
`## B` does close the current section — the scan of
`"# A\nbody\n## B\nmore"` yields two sections (the claim predicts one), with
the heading label still `A` for the second. -/
theorem C7_markdown_section_split_counterexample :
    markdownSections "# A\nbody\n## B\nmore".data 1 =
      [("A".data, "# A\nbody\n".data), ("A".data, "## B\nmore\n".data)] ∧
    (markdownSections "# A\nbody\n## B\nmore".data 1).length ≠ 1 := by
  constructor <;> decide

/-- C7 amended: every line whose trimmed form begins with `#` — regardless
of depth — flushes a non-empty current body as a section and starts a new
one; only the heading label update is gated on depth ≤ `heading_depth`; and
every line (heading or not) accumulates into the current body. -/
theorem C7_markdown_section_split_amended (d : Nat) (st : MdState)
    (line : List Char) :
    (¬ (trimStart line).head? = some '#' →
      mdStep d st line = { st with body := st.body ++ line ++ ['\n'] }) ∧
    ((trimStart line).head? = some '#' →
      mdStep d st line =
        { heading :=
            if ((trimStart line).takeWhile fun c => c = '#').length ≤ d then
              rustTrim ((trimStart line).dropWhile fun c => c = '#')
            else st.heading
          body := line ++ ['\n']
          sections := st.sections ++
            if st.body.isEmpty then [] else [(st.heading, st.body)] }) := by
  obtain ⟨h, b, secs⟩ := st
  constructor
  · intro hno
    simp only [mdStep, if_neg hno]
  · intro hyes
    simp only [mdStep, if_pos hyes]
    by_cases hb : b.isEmpty
    · have hbnil : b = [] := by simpa using hb
      subst hbnil
      by_cases hd : ((trimStart line).takeWhile fun c => c = '#').length ≤ d <;>
        simp [hd]
    · have hbne : ¬ b = [] := by simpa using hb
      by_cases hd : ((trimStart line).takeWhile fun c => c = '#').length ≤ d <;>
        simp [hd, hb]

/-- C7 witness: a depth-2 heading under `heading_depth = 1` flushes the
non-empty body and keeps the old heading label. -/
theorem C7_markdown_section_split_amended_witness :
    mdStep 1 ⟨"H".data, "x".data, []⟩ "## B".data =
      { heading := "H".data
        body := "## B\n".data
        sections := [("H".data, "x".data)] } := by
  have h := (C7_markdown_section_split_amended 1 ⟨"H".data, "x".data, []⟩
    "## B".data).2 (by decide)
  rw [h]
  decide

/-- C8 counterexample: with chunk 5 / overlap 1, the markdown file
`"aaaaaaaa\n# B\nx"` produces two sections of two chunks each with
`chunk_index` values 0, 1, 1, 2 in emission order — not strictly
increasing. -/
theorem C8_chunk_index_counterexample :
    (markdownProcess "aaaaaaaa\n# B\nx".data 5 1 6).map
        (fun pc => pc.chunk_index) = [0, 1, 1, 2] ∧
    ¬ List.Chain' (fun a b => a < b) [0, 1, 1, 2] := by
  refine ⟨by decide, ?_⟩
  simp [List.chain'_cons]

/-- `chunk_index` projection of the markdown chunks: section `g` with `n`
chunks contributes `g, g + 1, …, g + n - 1`. -/
theorem markdownProcess_chunk_index_eq (l : List (Nat × List Char × List Char))
    (cb ob : Nat) :
    ((l.flatMap fun gs =>
        (chunk_with_overlap (utf8Encode gs.2.2) cb ob).enum.map fun ic =>
          ({ text := ic.2
             chunk_index := gs.1 + ic.1
             chunk_id_hint := none
             metadata :=
               ("ingest_mode", MetaVal.s "text".data) ::
                 (if !gs.2.1.isEmpty then
                   [("markdown_heading", MetaVal.s gs.2.1)]
                 else []) } : PreparedChunk)).map
      fun pc => pc.chunk_index) =
      (l.map fun gs =>
        (List.range (chunk_with_overlap (utf8Encode gs.2.2) cb ob).length).map
          fun i => gs.1 + i).flatten := by
  induction l with
  | nil => rfl
  | cons a t ih =>
    simp only [List.flatMap_cons, List.map_append, List.map_cons,
      List.flatten_cons, ih]
    congr 1
    rw [List.map_map, ← List.enum_map_fst
      (chunk_with_overlap (utf8Encode a.2.2) cb ob), List.map_map]
    rfl

/-- C8 amended: across the whole markdown file, the emitted `chunk_index`
sequence is the concatenation over sections `g` of `g, g + 1, …`; it is
strictly increasing within each section, but restarts at `g + 0` for the
next section, so it is not strictly increasing across sections. -/
theorem C8_chunk_index_amended (content : List Char) (cb ob hd : Nat) :
    (markdownProcess content cb ob hd).map (fun pc => pc.chunk_index) =
      ((markdownSections content hd).enum.map fun gs =>
        (List.range (chunk_with_overlap (utf8Encode gs.2.2) cb ob).length).map
          fun i => gs.1 + i).flatten ∧
    ∀ l ∈ (markdownSections content hd).enum.map fun gs =>
        (List.range (chunk_with_overlap (utf8Encode gs.2.2) cb ob).length).map
          fun i => gs.1 + i,
      List.Chain' (fun a b => a < b) l := by
  constructor
  · exact markdownProcess_chunk_index_eq (markdownSections content hd).enum
      cb ob
  · intro l hl
    simp only [List.mem_map] at hl
    obtain ⟨gs, hgs, rfl⟩ := hl
    rw [List.chain'_map]
    exact ((List.pairwise_lt_range _).chain').imp fun hab => by omega

/-- C8 witness: a one-section file has indices `[0]`, strictly increasing
within the section. -/
theorem C8_chunk_index_amended_witness :
    (markdownProcess "x".data 2 1 6).map (fun pc => pc.chunk_index) =
      [[0]].flatten ∧
    List.Chain' (fun a b => a < b) ([0] : List Nat) := by
  constructor
  · rw [(C8_chunk_index_amended "x".data 2 1 6).1]
    decide
  · exact (C8_chunk_index_amended "x".data 2 1 6).2 [0] (by decide)

/-- Every character encodes to at least one byte. -/
theorem utf8EncodeChar_ne_nil (c : Char) : utf8EncodeChar c ≠ [] := by
  unfold utf8EncodeChar
  simp only []
  split_ifs <;> simp

/-- A string encodes to no bytes exactly when it is empty. -/
theorem utf8Encode_eq_nil (s : List Char) : utf8Encode s = [] ↔ s = [] := by
  cases s with
  | nil => simp [utf8Encode]
  | cons c t =>
    simp only [utf8Encode, List.map_cons, List.flatten_cons,
      List.append_eq_nil]
    constructor
    · intro h
      exact absurd h.1 (utf8EncodeChar_ne_nil c)
    · intro h
      simp at h

/-- A within-bounds, non-degenerate slice of a list is nonempty. -/
theorem drop_take_ne_nil {α : Type} (l : List α) (s e : Nat)
    (hs : s < l.length) (he : s < e) : (l.drop s).take (e - s) ≠ [] := by
  intro h
  have hlen := congrArg List.length h
  simp only [List.length_take, List.length_drop, List.length_nil] at hlen
  omega

/-- Every slice pushed by the `chunk_with_overlap` loop is nonempty when
`chunk_bytes > 0`. -/
theorem chunkGo_text_ne_nil (bytes : List Nat) (c o : Nat) (hc : 0 < c) :
    ∀ fuel start, ∀ x ∈ chunkGo bytes c o fuel start, x ≠ [] := by
  intro fuel
  induction fuel with
  | zero => intro start x hx; simp [chunkGo] at hx
  | succ n ih =>
    intro start x hx
    simp only [chunkGo] at hx
    by_cases hs : start < bytes.length
    · rw [if_pos hs] at hx
      by_cases hel : min (start + c) bytes.length = bytes.length
      · rw [if_pos hel] at hx
        simp only [List.mem_singleton] at hx
        subst hx
        exact drop_take_ne_nil bytes start (min (start + c) bytes.length) hs
          (by omega)
      · rw [if_neg hel] at hx
        rcases List.mem_cons.mp hx with hx | hx
        · subst hx
          exact drop_take_ne_nil bytes start (min (start + c) bytes.length) hs
            (by omega)
        · exact ih _ x hx
    · rw [if_neg hs] at hx
      simp at hx

/-- Every chunk `chunk_with_overlap` emits is nonempty. -/
theorem chunk_with_overlap_text_ne_nil (bytes : List Nat) (c o : Nat) :
    ∀ x ∈ chunk_with_overlap bytes c o, x ≠ [] := by
  intro x hx
  by_cases hc : c = 0
  · simp [chunk_with_overlap, hc] at hx
  · rw [chunk_with_overlap, if_neg hc] at hx
    exact chunkGo_text_ne_nil bytes c o (by omega) _ _ x hx

/-- Joining rows with `\n` gives the empty string exactly for no rows or a
single empty row. -/
theorem joinNL_eq_nil (ll : List (List Char)) :
    joinNL ll = [] ↔ ll = [] ∨ ll = [[]] := by
  match ll with
  | [] => simp [joinNL]
  | [l] => simp [joinNL]
  | l :: l2 :: ls => simp [joinNL]

/-- The second component of an enumerated element is a list element. -/
theorem snd_mem_of_mem_enum {α : Type} {p : Nat × α} {l : List α}
    (h : p ∈ l.enum) : p.2 ∈ l := by
  obtain ⟨i, a⟩ := p
  rw [List.enum_eq_zip_range] at h
  exact (List.of_mem_zip h).2

/-- Every symbol chunk produced by `chunk_code_symbols` has nonempty text:
degenerate spans and blank slices are skipped, split parts come from
`chunk_with_overlap`. -/
theorem chunk_code_symbols_text_ne_nil (content : List Nat) (cb ob : Nat)
    (symbols : List SymbolInfo) :
    ∀ sc ∈ chunk_code_symbols content cb ob symbols, sc.text ≠ [] := by
  intro sc hsc
  unfold chunk_code_symbols at hsc
  by_cases hempty : symbols.isEmpty
  · simp [hempty] at hsc
  · rw [if_neg hempty] at hsc
    simp only [List.mem_flatMap] at hsc
    obtain ⟨sym, hsym, hmem⟩ := hsc
    by_cases hrange : sym.end_byte > content.length ∨
        sym.start_byte ≥ sym.end_byte
    · simp [if_pos hrange] at hmem
    · rw [if_neg hrange] at hmem
      push_neg at hrange
      by_cases hblank : blankBytes
          ((content.drop sym.start_byte).take (sym.end_byte - sym.start_byte))
      · simp [hblank] at hmem
      · rw [if_neg hblank] at hmem
        by_cases hsplit : 0 < cb ∧ cb <
            ((content.drop sym.start_byte).take
              (sym.end_byte - sym.start_byte)).length
        · rw [if_pos hsplit] at hmem
          simp only [List.mem_map] at hmem
          obtain ⟨ip, hip, rfl⟩ := hmem
          exact chunk_with_overlap_text_ne_nil _ cb ob ip.2
            (snd_mem_of_mem_enum hip)
        · rw [if_neg hsplit] at hmem
          simp only [List.mem_singleton] at hmem
          subst hmem
          exact drop_take_ne_nil content sym.start_byte sym.end_byte
            (by omega) (by omega)

/-- C9 counterexample: the supported UTF-8 CSV file with content `"\n"`
(one empty row) makes the data handler emit a chunk whose text is empty —
refuting "every PreparedChunk has non-empty text". -/
theorem C9_nonempty_text_counterexample :
    (dataProcess "x.csv".data "\n".data 200).map (fun pc => pc.text) =
      [[]] ∧
    handlerSupports .data "x.csv".data (utf8Encode "\n".data)
      ⟨false, 33 / 100⟩ = true := by
  constructor
  · decide
  · have hb : is_probably_binary_with_threshold (utf8Encode "\n".data)
        ((33 : ℚ) / 100) = false :=
      classifier_not_binary _ _ (by decide) (by decide) (by decide)
        (by norm_num)
    rw [handlerSupports_of_not_binary .data "x.csv".data
      (utf8Encode "\n".data) ⟨false, 33 / 100⟩ hb]
    decide

/-- C9 amended: every chunk emitted by the Code, Markdown, PlainText and
Binary handlers has non-empty text; a Data-handler chunk's text is empty
only when its row window is exactly one empty row, or it is the fallback
chunk of an empty content. -/
theorem C9_nonempty_text_amended :
    (∀ path content cb ob symbols,
      ∀ pc ∈ codeProcess path content cb ob symbols, pc.text ≠ []) ∧
    (∀ content cb ob hd,
      ∀ pc ∈ markdownProcess content cb ob hd, pc.text ≠ []) ∧
    (∀ bytes cb ob, ∀ pc ∈ plainTextProcess bytes cb ob, pc.text ≠ []) ∧
    (∀ path bytes, ∀ pc ∈ binaryProcess path bytes, pc.text ≠ []) ∧
    (∀ path content m, 0 < m → ∀ pc ∈ dataProcess path content m,
      pc.text = [] →
        (∃ s e, ("row_range", MetaVal.range s e) ∈ pc.metadata ∧
          ((rustLines content).drop s).take (e - s) = [[]]) ∨
        (rustLines content = [] ∧ content = [])) := by
  refine ⟨?_, ?_, ?_, ?_, ?_⟩
  · intro path content cb ob symbols pc hpc
    unfold codeProcess at hpc
    cases hl : language_from_extension path with
    | none => rw [hl] at hpc; simp at hpc
    | some lang =>
      rw [hl] at hpc
      by_cases hsc : (chunk_code_symbols content cb ob symbols).isEmpty
      · simp only [hsc, Bool.not_true, Bool.false_eq_true, if_false] at hpc
        simp only [List.mem_map] at hpc
        obtain ⟨ic, hic, rfl⟩ := hpc
        exact chunk_with_overlap_text_ne_nil content cb ob ic.2
          (snd_mem_of_mem_enum hic)
      · simp only [hsc, Bool.not_false, if_true] at hpc
        simp only [List.mem_map] at hpc
        obtain ⟨isc, hisc, rfl⟩ := hpc
        exact chunk_code_symbols_text_ne_nil content cb ob symbols isc.2
          (snd_mem_of_mem_enum hisc)
  · intro content cb ob hd pc hpc
    unfold markdownProcess at hpc
    simp only [List.mem_flatMap] at hpc
    obtain ⟨gs, _, hpc⟩ := hpc
    simp only [List.mem_map] at hpc
    obtain ⟨ic, hic, rfl⟩ := hpc
    exact chunk_with_overlap_text_ne_nil _ cb ob ic.2
      (snd_mem_of_mem_enum hic)
  · intro bytes cb ob pc hpc
    unfold plainTextProcess at hpc
    simp only [List.mem_map] at hpc
    obtain ⟨ic, hic, rfl⟩ := hpc
    exact chunk_with_overlap_text_ne_nil bytes cb ob ic.2
      (snd_mem_of_mem_enum hic)
  · intro path bytes pc hpc
    simp only [binaryProcess, List.mem_singleton] at hpc
    subst hpc
    simp only [ne_eq, utf8Encode_eq_nil]
    simp
  · intro path content m hm pc hpc htext
    by_cases hl : rustLines content = []
    · right
      refine ⟨hl, ?_⟩
      simp only [dataProcess, hl, rowWindows, rowWindowsGo] at hpc
      simp only [List.length_nil, Nat.lt_irrefl, if_false, List.enum_nil,
        List.map_nil, List.isEmpty_nil, if_true, List.mem_singleton] at hpc
      subst hpc
      simpa [utf8Encode_eq_nil] using htext
    · left
      have htot : 0 < (rustLines content).length := List.length_pos.mpr hl
      obtain ⟨hHead, hLast, hChain, hAll⟩ :=
        rowWindowsGo_spec (rustLines content).length m hm
          ((rustLines content).length + 1) 0 htot (by omega)
      obtain ⟨tail, htail⟩ : ∃ tail,
          rowWindowsGo (rustLines content).length m
            ((rustLines content).length + 1) 0 =
            (0, min (0 + m) (rustLines content).length) :: tail := by
        cases hcg : rowWindowsGo (rustLines content).length m
            ((rustLines content).length + 1) 0 with
        | nil => rw [hcg] at hHead; simp at hHead
        | cons a tail =>
          rw [hcg] at hHead
          simp only [List.head?_cons, Option.some.injEq] at hHead
          exact ⟨tail, by rw [hHead]⟩
      have htail2 : rowWindows (rustLines content).length m =
          (0, min (0 + m) (rustLines content).length) :: tail := htail
      unfold dataProcess at hpc
      simp only [] at hpc
      rw [htail2] at hpc
      rw [if_neg (by simp [List.enum, List.enumFrom])] at hpc
      simp only [List.mem_map] at hpc
      obtain ⟨iw, hiw, rfl⟩ := hpc
      have hwin : iw.2 ∈ rowWindowsGo (rustLines content).length m
          ((rustLines content).length + 1) 0 := by
        rw [htail]
        exact snd_mem_of_mem_enum hiw
      obtain ⟨hwe, hws⟩ := hAll iw.2 hwin
      have hsl : ((rustLines content).drop iw.2.1).take
          (iw.2.2 - iw.2.1) ≠ [] :=
        drop_take_ne_nil (rustLines content) iw.2.1 iw.2.2 (by omega)
          (by omega)
      have hjoin : joinNL (((rustLines content).drop iw.2.1).take
          (iw.2.2 - iw.2.1)) = [] := by
        simpa [utf8Encode_eq_nil] using htext
      rcases (joinNL_eq_nil _).mp hjoin with h | h
      · exact absurd h hsl
      · exact ⟨iw.2.1, iw.2.2, by simp, h⟩

/-- C9 witness: a one-byte plain-text file yields chunks with non-empty
text; a one-empty-row CSV window satisfies the empty-text characterisation. -/
theorem C9_nonempty_text_amended_witness :
    ({ text := [65]
       chunk_index := 0
       chunk_id_hint := none
       metadata := [("ingest_mode", MetaVal.s "text".data)] } :
        PreparedChunk) ∈ plainTextProcess [65] 5 1 ∧
    ({ text := [65]
       chunk_index := 0
       chunk_id_hint := none
       metadata := [("ingest_mode", MetaVal.s "text".data)] } :
        PreparedChunk).text ≠ [] := by
  refine ⟨by decide, ?_⟩
  exact C9_nonempty_text_amended.2.2.1 [65] 5 1 _ (by decide)

/-- The file loop processes an appended job list sequentially, propagating
the first error. -/
theorem processFiles_append {E : Type} (eff : DriverEffects E)
    (rest : List FileJob) :
    ∀ (jobs1 : List FileJob) (st : DriverState),
      processFiles eff st (jobs1 ++ rest) =
        match processFiles eff st jobs1 with
        | .error e => .error e
        | .ok st1 => processFiles eff st1 rest := by
  intro jobs1
  induction jobs1 with
  | nil => intro st; rfl
  | cons j t ih =>
    intro st
    simp only [List.cons_append, processFiles]
    cases processFile eff st j with
    | error e => rfl
    | ok st1 => exact ih st1

/-- C4: a label or write failure on any reached chunk aborts the whole run —
the model returns that error and persists no manifest, so even files fully
processed earlier in the run lose their manifest updates; and a file's
manifest entry is inserted only after every one of its chunks has been
handled (the chunk loop must finish with `ok`, and on success the entry is
inserted exactly once, after the loop). -/
theorem C4_run_abort_spec (E : Type) :
    (∀ (eff : DriverEffects E) manifest0 jobs1 job jobs2 st1 e,
      processFiles eff ⟨[], manifest0⟩ jobs1 = .ok st1 →
      processFile eff st1 job = .error e →
      runIndexRepoModel eff (jobs1 ++ job :: jobs2) manifest0 = .error e ∧
      persistedManifest
        (runIndexRepoModel eff (jobs1 ++ job :: jobs2) manifest0) = none) ∧
    (∀ (eff : DriverEffects E) st path fileHash idx ids pre chunk post st2
        ids2 e,
      processChunks eff path fileHash idx st ids pre = .ok (st2, ids2) →
      eff.hashFn chunk.text ∉ st2.seen →
      (eff.label path chunk.text = .error e ∨
        (eff.label path chunk.text = .ok () ∧
          eff.write path chunk.text = .error e)) →
      processChunks eff path fileHash idx st ids (pre ++ chunk :: post) =
        .error e) ∧
    (∀ (eff : DriverEffects E) st job e,
      processChunks eff job.path job.fileHash 0 st [] job.chunks =
        .error e →
      processFile eff st job = .error e) ∧
    (∀ (eff : DriverEffects E) st job st2 ids,
      processChunks eff job.path job.fileHash 0 st [] job.chunks =
        .ok (st2, ids) →
      processFile eff st job =
        .ok { st2 with
                manifest := { st2.manifest with
                  files := alistInsert job.path
                    ⟨job.fileHash, job.mtime, ids⟩ st2.manifest.files } }) := by
  have hchunks : ∀ (eff : DriverEffects E) path fileHash pre idx st ids st2
      ids2 chunk post e,
      processChunks eff path fileHash idx st ids pre = .ok (st2, ids2) →
      eff.hashFn chunk.text ∉ st2.seen →
      (eff.label path chunk.text = .error e ∨
        (eff.label path chunk.text = .ok () ∧
          eff.write path chunk.text = .error e)) →
      processChunks eff path fileHash idx st ids (pre ++ chunk :: post) =
        .error e := by
    intro eff path fileHash pre
    induction pre with
    | nil =>
      intro idx st ids st2 ids2 chunk post e hok hseen hfail
      simp only [processChunks] at hok
      injection hok with hok
      injection hok with hst hids
      subst hst
      subst hids
      simp only [List.nil_append, processChunks]
      rw [if_neg (by simpa using hseen)]
      rcases hfail with hfail | ⟨hlab, hwr⟩
      · rw [hfail]
      · rw [hlab, hwr]
    | cons p t ih =>
      intro idx st ids st2 ids2 chunk post e hok hseen hfail
      simp only [processChunks] at hok ⊢
      by_cases hs : eff.hashFn p.text ∈ st.seen
      · rw [if_pos (by simpa using hs)] at hok ⊢
        exact ih _ _ _ _ _ chunk post e hok hseen hfail
      · rw [if_neg (by simpa using hs)] at hok ⊢
        cases hlab : eff.label path p.text with
        | error e2 => rw [hlab] at hok; cases hok
        | ok u =>
          rw [hlab] at hok
          cases hwr : eff.write path p.text with
          | error e2 => rw [hwr] at hok; cases hok
          | ok u2 =>
            rw [hwr] at hok
            exact ih _ _ _ _ _ chunk post e hok hseen hfail
  refine ⟨?_, ?_, ?_, ?_⟩
  · intro eff manifest0 jobs1 job jobs2 st1 e h1 h2
    have hrun : runIndexRepoModel eff (jobs1 ++ job :: jobs2) manifest0 =
        .error e := by
      unfold runIndexRepoModel
      rw [processFiles_append eff (job :: jobs2) jobs1 ⟨[], manifest0⟩, h1]
      simp only [processFiles, h2]
    exact ⟨hrun, by rw [hrun]; rfl⟩
  · intro eff st path fileHash idx ids pre chunk post st2 ids2 e hok hseen
      hfail
    exact hchunks eff path fileHash pre idx st ids st2 ids2 chunk post e hok
      hseen hfail
  · intro eff st job e h
    unfold processFile
    rw [h]
  · intro eff st job st2 ids h
    unfold processFile
    rw [h]

/-- C4 witness: one file with one chunk and a memory-store write that always
fails makes the whole run return that error, with no manifest persisted. -/
theorem C4_run_abort_spec_witness :
    runIndexRepoModel
      (⟨fun _ _ => .ok (), fun _ _ => .error 7, fun _ => []⟩ :
        DriverEffects Nat)
      [⟨"a.txt".data, "h".data, 3, [⟨[65], 0, none, []⟩]⟩] ⟨0, []⟩ =
      .error 7 ∧
    persistedManifest (runIndexRepoModel
      (⟨fun _ _ => .ok (), fun _ _ => .error 7, fun _ => []⟩ :
        DriverEffects Nat)
      [⟨"a.txt".data, "h".data, 3, [⟨[65], 0, none, []⟩]⟩] ⟨0, []⟩) =
      none := by
  exact (C4_run_abort_spec Nat).1
    (⟨fun _ _ => .ok (), fun _ _ => .error 7, fun _ => []⟩ : DriverEffects Nat)
    ⟨0, []⟩ [] ⟨"a.txt".data, "h".data, 3, [⟨[65], 0, none, []⟩]⟩ []
    ⟨[], ⟨0, []⟩⟩ 7 rfl rfl

/-- C10 witness: the plain-text handler accepts a `.json` path for the empty
(trivially UTF-8, non-binary) buffer. -/
theorem C10_plain_text_supports_witness :
    handlerSupports .text "foo.json".data [] ⟨false, 1⟩ = true :=
  (C10_plain_text_supports "foo.json".data [] ⟨false, 1⟩ (by decide)
    (by decide)).2.1
